import Mathlib

/-!
Verification of the bounded MPMC buffer pool of `bounded_pool.go` (package iobuf).

The Go code is embedded shallowly.  The pool struct becomes a Lean structure,
the atomic slot array becomes a `List Nat` of 64-bit words, the 32-bit cursors
become `Nat` values reduced modulo `2 ^ 32` exactly where the Go code performs
`uint32` arithmetic, and the lock-free retry loops of `tryGet` / `tryPut`
become fuel-indexed recursive functions.  The semantics modelled is the
sequential (single caller, quiescent) one: a compare-and-swap whose expected
value was loaded from the current, since unchanged, state always succeeds, and
the `head` consistency re-check in `tryGet` (which compares `head` with a
fresh load of the same atomic) always passes.  Go panics are modelled as
`Option.none` or a dedicated `panicked` result constructor.
-/

/-- `internal.CacheLineSize` on the 64-bit architectures the pool supports
(`cacheline_amd64.go`, `cacheline_riscv64.go`, `cacheline_loong64.go`,
`cpu_64.go` all define it as 64; 32-bit platforms are out of scope). -/
def cacheLineSize : Nat := 64

/-- `unsafe.Sizeof(atomic.Uint64{})`: 8 bytes. -/
def atomicUint64Size : Nat := 8

/-- Go `uint32` conversion / truncation of a non-negative value. -/
def u32 (n : Nat) : Nat := n % 2 ^ 32

/-- `boundedPoolEntryEmpty = 1 << 62`: marks a slot word as empty. -/
def boundedPoolEntryEmpty : Nat := 1 <<< 62

/-- `boundedPoolEntryTurnMask = boundedPoolEntryEmpty>>32 - 1`: mask for the
turn counter (equals `2 ^ 30 - 1`). -/
def boundedPoolEntryTurnMask : Nat := (boundedPoolEntryEmpty >>> 32) - 1

/-- The `BoundedPool[T]` struct of `bounded_pool.go`.  `items` is the value
table, `entries` the slot array of 64-bit words (empty until `Fill` runs),
`head`/`tail` the 32-bit dequeue/enqueue cursors. -/
structure BoundedPool (T : Type) where
  items : List T
  capacity : Nat
  mask : Nat
  entries : List Nat
  remapM : Nat
  remapN : Nat
  remapMask : Nat
  head : Nat
  tail : Nat
  nonblocking : Bool
deriving DecidableEq

/-- The bit-smear of `NewBoundedPool` lines 134-139: fills every bit below the
most significant set bit of `x` (a value below `2 ^ 32`). -/
def smear32 (x : Nat) : Nat :=
  let c1 := x ||| x >>> 1
  let c2 := c1 ||| c1 >>> 2
  let c3 := c2 ||| c2 >>> 4
  let c4 := c3 ||| c3 >>> 8
  c4 ||| c4 >>> 16

/-- The capacity normalisation of `NewBoundedPool`: `capacity--`, bit-smear,
`capacity++`, i.e. rounding up to the next power of two (while the value still
lives in Go's 64-bit `int`). -/
def normCap (n : Nat) : Nat := smear32 (n - 1) + 1

/-- `remapM = min(internal.CacheLineSize/unsafe.Sizeof(atomic.Uint64{}), uintptr(capacity))`. -/
def remapMOf (C : Nat) : Nat := min (cacheLineSize / atomicUint64Size) C

/-- `remapN = max(1, uintptr(capacity)/remapM)`. -/
def remapNOf (C : Nat) : Nat := max 1 (C / remapMOf C)

/-- The record literal `NewBoundedPool` builds for a normalised capacity `C`.
The (64-bit) normalised capacity and `capacity - 1` are stored into 32-bit
fields, truncating - `u32` - exactly where Go converts to `uint32`;
`remapM`/`remapN`/`remapMask` are at most `2 ^ 29`, so their `uint32`
conversions are written without truncation. -/
def poolOf (T : Type) (C : Nat) : BoundedPool T :=
  { items := []
    capacity := u32 C
    mask := u32 (C - 1)
    entries := []
    remapM := remapMOf C
    remapN := remapNOf C
    remapMask := remapNOf C - 1
    head := 0
    tail := 0
    nonblocking := false }

/-- `NewBoundedPool[ItemType](capacity int)`.  The Go panic on a capacity
outside `[1, math.MaxUint32]` is modelled as `none`; otherwise the requested
capacity is rounded up to the next power of two (`normCap`) and the pool
record is built (`poolOf`). -/
def NewBoundedPool {T : Type} (capacity : Int) : Option (BoundedPool T) :=
  if capacity < 1 ∨ (2 ^ 32 - 1 : Int) < capacity then none
  else some (poolOf T (normCap capacity.toNat))

namespace BoundedPool

variable {T : Type}

/-- `Fill(newFunc)`: appends `capacity` items produced by the factory to the
value table, allocates the slot array with `entries[i] = uint64(i)` and sets
`tail := capacity`.  The `i`-th call of the impure Go factory `newFunc()` is
modelled as `newFunc i`.  Storing `uint64(i)` for `i` ranging over the
capacity yields exactly `List.range`. -/
def Fill (s : BoundedPool T) (newFunc : Nat → T) : BoundedPool T :=
  { s with
    items := s.items ++ (List.range s.capacity).map newFunc
    entries := List.range s.capacity
    tail := s.capacity }

/-- `SetNonblock(nonblocking)`. -/
def SetNonblock (s : BoundedPool T) (nonblocking : Bool) : BoundedPool T :=
  { s with nonblocking := nonblocking }

/-- `Cap()`: returns `int(pool.capacity)`. -/
def Cap (s : BoundedPool T) : Nat := s.capacity

/-- `Value(indirect int)`.  The three Go panics (pool not filled, indirect
carrying the empty-marker bit, indirect out of range) are modelled as `none`;
otherwise the stored item `pool.items[indirect]` is returned.  The argument is
a Go `int`, hence `Int`. -/
def Value (s : BoundedPool T) (indirect : Int) : Option T :=
  if s.items.length ≠ s.capacity then none
  else if Int.land indirect ((boundedPoolEntryEmpty : Nat) : Int) =
      ((boundedPoolEntryEmpty : Nat) : Int) then none
  else if indirect < 0 ∨ (s.capacity : Int) ≤ indirect then none
  else s.items.get? indirect.toNat

/-- `SetValue(indirect int, value T)`: same guards as `Value`, then stores
`value` at index `indirect` of the value table. -/
def SetValue (s : BoundedPool T) (indirect : Int) (value : T) :
    Option (BoundedPool T) :=
  if s.items.length ≠ s.capacity then none
  else if Int.land indirect ((boundedPoolEntryEmpty : Nat) : Int) =
      ((boundedPoolEntryEmpty : Nat) : Int) then none
  else if indirect < 0 ∨ (s.capacity : Int) ≤ indirect then none
  else some { s with items := s.items.set indirect.toNat value }

/-- `remap(cursor uint32) int`: `p, q := cursor/remapN, cursor&remapMask;`
`q*remapM + p%remapM`.  The multiplication and the addition are `uint32`
operations; reducing once at the end is equivalent to Go's per-operation
truncation.  (Go would panic by zero division if `remapN` were 0, which never
holds for a constructed pool.) -/
def remap (s : BoundedPool T) (cursor : Nat) : Nat :=
  let p := cursor / s.remapN
  let q := cursor &&& s.remapMask
  u32 (q * s.remapM + p % s.remapM)

/-- `empty(turn uint32) uint64`: `boundedPoolEntryEmpty | uint64(turn&turnMask)`.
The Go receiver is unused. -/
def empty (_ : BoundedPool T) (turn : Nat) : Nat :=
  boundedPoolEntryEmpty ||| (turn &&& boundedPoolEntryTurnMask)

/-- Result of one `tryGet` invocation: the dequeued entry, the would-block
error on an empty pool, or exhaustion of the retry fuel (the spin loop has
not returned yet). -/
inductive TryGetResult (T : Type) where
  | ok (entry : Nat) (s : BoundedPool T)
  | wouldBlock (s : BoundedPool T)
  | fuelOut (s : BoundedPool T)
deriving DecidableEq

/-- Result of one `tryPut` invocation. -/
inductive TryPutResult (T : Type) where
  | ok (s : BoundedPool T)
  | wouldBlock (s : BoundedPool T)
  | fuelOut (s : BoundedPool T)
deriving DecidableEq

/-- `tryGet()`, sequential semantics, one recursive call per loop iteration.
Per iteration: load `h`, `t`; load the slot word `e` at `remap(h & mask)`
(the `h != head.Load()` re-check trivially passes with no concurrent writer);
return would-block when `h == t`; if `e` already equals the next-turn empty
marker, help advance `head` (the sequential CAS `h -> h+1` succeeds) and
retry; otherwise the slot CAS against the just-loaded `e` succeeds: install
the next-turn empty marker, advance `head`, return `e`.  (On an unfilled pool
Go would panic indexing the empty slot array; `List.getD` returns 0 instead;
the public `Get`/`Put` never reach `tryGet`/`tryPut` unfilled.) -/
def tryGet : Nat → BoundedPool T → TryGetResult T
  | 0, s => .fuelOut s
  | fuel + 1, s =>
    let h := s.head
    let t := s.tail
    let hi := s.remap (h &&& s.mask)
    let e := s.entries.getD hi 0
    if h = t then .wouldBlock s
    else
      let nextTurn := u32 (h / s.capacity + 1) &&& boundedPoolEntryTurnMask
      if e = s.empty nextTurn then
        tryGet fuel { s with head := u32 (h + 1) }
      else
        .ok e { s with entries := s.entries.set hi (s.empty nextTurn),
                       head := u32 (h + 1) }

/-- `tryPut(e uint64)`, sequential semantics, one recursive call per loop
iteration.  Per iteration: load `h`, `t`; return would-block when
`t == h+capacity` (`uint32` arithmetic); otherwise CAS the slot at `remap(t)`
from the current-turn empty marker to `e` and advance `tail` (the advisory
tail CAS succeeds sequentially in both branches); retry when the slot CAS
fails. -/
def tryPut : Nat → Nat → BoundedPool T → TryPutResult T
  | 0, _, s => .fuelOut s
  | fuel + 1, e, s =>
    let h := s.head
    let t := s.tail
    if t = u32 (h + s.capacity) then .wouldBlock s
    else
      let turn := (t / s.capacity) &&& boundedPoolEntryTurnMask
      let ti := s.remap t
      if s.entries.getD ti 0 = s.empty turn then
        .ok { s with entries := s.entries.set ti e, tail := u32 (t + 1) }
      else
        tryPut fuel e { s with tail := u32 (t + 1) }

/-- Result of the public `Get`: the Go panic on an unfilled pool, a dequeued
indirect index, the non-blocking would-block error, or fuel exhaustion
(modelling that the blocking loop has not returned yet). -/
inductive GetResult (T : Type) where
  | panicked
  | ok (indirect : Nat) (s : BoundedPool T)
  | wouldBlock (s : BoundedPool T)
  | fuelOut (s : BoundedPool T)
deriving DecidableEq

/-- Result of the public `Put`. -/
inductive PutResult (T : Type) where
  | panicked
  | ok (s : BoundedPool T)
  | wouldBlock (s : BoundedPool T)
  | fuelOut (s : BoundedPool T)
deriving DecidableEq

/-- The retry loop of `Get`: on success return `int(entry & uint64(mask))`;
on would-block return the error in non-blocking mode, otherwise back off
(`aw.Wait()`, no pool effect) and retry. -/
def GetAux : Nat → BoundedPool T → GetResult T
  | 0, s => .fuelOut s
  | fuel + 1, s =>
    match tryGet (fuel + 1) s with
    | .ok entry s1 => .ok (entry &&& s1.mask) s1
    | .wouldBlock s1 => if s1.nonblocking then .wouldBlock s1 else GetAux fuel s1
    | .fuelOut s1 => .fuelOut s1

/-- `Get()`: panics when the pool is not filled
(`len(pool.items) != int(pool.capacity)`), then loops on `tryGet`. -/
def Get (fuel : Nat) (s : BoundedPool T) : GetResult T :=
  if s.items.length ≠ s.capacity then .panicked else GetAux fuel s

/-- The retry loop of `Put`. -/
def PutAux : Nat → Nat → BoundedPool T → PutResult T
  | 0, _, s => .fuelOut s
  | fuel + 1, e, s =>
    match tryPut (fuel + 1) e s with
    | .ok s1 => .ok s1
    | .wouldBlock s1 => if s1.nonblocking then .wouldBlock s1 else PutAux fuel e s1
    | .fuelOut s1 => .fuelOut s1

/-- `Put(indirect int)`: panics when the pool is not filled, converts the
argument with `entry := uint64(indirect)` (two's-complement reduction modulo
`2 ^ 64`) and loops on `tryPut`. -/
def Put (fuel : Nat) (indirect : Int) (s : BoundedPool T) : PutResult T :=
  if s.items.length ≠ s.capacity then .panicked
  else PutAux fuel ((indirect % (2 ^ 64 : Int)).toNat) s

/-- The slot word a logical cursor position `k` refers to: the slot array
entry at physical index `remap(k & mask)`. -/
def slotAt (s : BoundedPool T) (k : Nat) : Nat :=
  s.entries.getD (s.remap (k &&& s.mask)) 0

/-- Number of occupied entries: `tail - head` (the sequential invariant keeps
`head ≤ tail`, so no 32-bit modular subtraction is needed). -/
def occCount (s : BoundedPool T) : Nat := s.tail - s.head

/-- The queue content as a list: the slot words at logical positions
`head, head+1, ..., tail-1`, in dequeue order. -/
def occList (s : BoundedPool T) : List Nat :=
  (List.range (occCount s)).map (fun j => slotAt s (s.head + j))

/-- The state a successful sequential `tryGet` leaves behind: the head slot
holds the next-turn empty marker and `head` advanced by one. -/
def dequeueState (s : BoundedPool T) : BoundedPool T :=
  { s with
    entries := s.entries.set (s.remap (s.head &&& s.mask))
      (s.empty (u32 (s.head / s.capacity + 1) &&& boundedPoolEntryTurnMask))
    head := u32 (s.head + 1) }

/-- The state a successful sequential `tryPut e` leaves behind: the tail slot
holds `e` and `tail` advanced by one. -/
def enqueueState (e : Nat) (s : BoundedPool T) : BoundedPool T :=
  { s with entries := s.entries.set (s.remap s.tail) e, tail := u32 (s.tail + 1) }

/-- `k` successive public `Get` calls, each required to succeed. -/
def getTimes : Nat → BoundedPool T → Option (BoundedPool T)
  | 0, s => some s
  | k + 1, s =>
    match Get 1 s with
    | .ok _ s1 => getTimes k s1
    | _ => none

/-- A `Get` followed immediately by a `Put` of the returned indirect index,
both required to succeed. -/
def getPut (s : BoundedPool T) : Option (BoundedPool T) :=
  match Get 1 s with
  | .ok i s1 =>
    match Put 1 (i : Int) s1 with
    | .ok s2 => some s2
    | _ => none
  | _ => none

/-- Sequential well-formedness invariant of a filled pool.  The parameter
fields are the ones `NewBoundedPool` computes for a power-of-two capacity of
at most `2 ^ 31`; the cursors are the actual (not yet wrapped) counters; every
logical position in `[head, tail)` refers to a 64-bit slot word without the
empty-marker bit, and every logical position in `[tail, head + capacity)`
refers to the empty marker carrying that position's turn. -/
structure Inv (s : BoundedPool T) : Prop where
  cap_pow : ∃ e, e ≤ 31 ∧ s.capacity = 2 ^ e
  mask_eq : s.mask = s.capacity - 1
  m_eq : s.remapM = remapMOf s.capacity
  n_eq : s.remapN = remapNOf s.capacity
  nmask_eq : s.remapMask = s.remapN - 1
  entries_len : s.entries.length = s.capacity
  items_len : s.items.length = s.capacity
  head_le : s.head ≤ s.tail
  tail_le : s.tail ≤ s.head + s.capacity
  tail_lt : s.tail < 2 ^ 32
  occ : ∀ k, s.head ≤ k → k < s.tail →
    slotAt s k < 2 ^ 64 ∧ (slotAt s k).testBit 62 = false
  emp : ∀ k, s.tail ≤ k → k < s.head + s.capacity →
    slotAt s k = s.empty ((k / s.capacity) &&& boundedPoolEntryTurnMask)

end BoundedPool

/-- The physical slot index computation: `remap` applied to the parameters
`NewBoundedPool` assigns for a capacity `C`, with the `uint32` truncations
(no-ops for `C ≤ 2 ^ 32`) omitted. -/
def physIdx (C k : Nat) : Nat :=
  (k &&& (remapNOf C - 1)) * remapMOf C + (k / remapNOf C) % remapMOf C

/-- Projection: the state a successful `Get` returned. -/
def getState {T : Type} : BoundedPool.GetResult T → Option (BoundedPool T)
  | .ok _ s => some s
  | _ => none

/-- Projection: the indirect index a successful `Get` returned. -/
def getIdx {T : Type} : BoundedPool.GetResult T → Option Nat
  | .ok i _ => some i
  | _ => none

/-- Projection: the state a successful `Put` returned. -/
def putState {T : Type} : BoundedPool.PutResult T → Option (BoundedPool T)
  | .ok s => some s
  | _ => none

/-- A trivial factory for pools of `Unit` buffers. -/
def unitFactory : Nat → Unit := fun _ => ()

/-- Concrete pools used by the witnesses and counterexamples below. -/
def pool1 : BoundedPool Unit := poolOf Unit 1

def pool2 : BoundedPool Unit := poolOf Unit 2

def pool4 : BoundedPool Unit := poolOf Unit 4

def pool4N : BoundedPool Nat := poolOf Nat 4

def pool16 : BoundedPool Unit := poolOf Unit 16

def pool1L : BoundedPool (List Nat) := poolOf (List Nat) 1

/-- A filled non-blocking pool of capacity 2 (pre-state of the round-trip
counterexample). -/
def c6pre : BoundedPool Unit := (pool2.Fill unitFactory).SetNonblock true

/-- A filled non-blocking pool of capacity 1. -/
def c10pre : BoundedPool Unit := (pool1.Fill unitFactory).SetNonblock true

/-- A filled pool of capacity 1 whose single buffer is the two-byte list
`[0, 0]`. -/
def c8pre : BoundedPool (List Nat) := pool1L.Fill (fun _ => [0, 0])

/-! ### Arithmetic facts: `uint32` truncation, entry constants, bit smear -/

theorem u32_eq_of_lt {n : Nat} (h : n < 2 ^ 32) : u32 n = n := Nat.mod_eq_of_lt h

theorem boundedPoolEntryEmpty_eq : boundedPoolEntryEmpty = 2 ^ 62 := by decide

theorem boundedPoolEntryTurnMask_eq : boundedPoolEntryTurnMask = 2 ^ 30 - 1 := by
  decide

theorem testBit_or_shift (a d i : Nat) :
    (a ||| a >>> d).testBit i = (a.testBit i || a.testBit (i + d)) := by
  rw [Nat.testBit_lor, Nat.testBit_shiftRight, Nat.add_comm d i]

theorem spread_step {a x w : Nat}
    (h : ∀ i, a.testBit i = true ↔ ∃ j, i ≤ j ∧ j < i + w ∧ x.testBit j = true)
    (i : Nat) :
    (a ||| a >>> w).testBit i = true ↔
      ∃ j, i ≤ j ∧ j < i + (w + w) ∧ x.testBit j = true := by
  rw [testBit_or_shift, Bool.or_eq_true, h i, h (i + w)]
  constructor
  · rintro (⟨j, hj1, hj2, hj3⟩ | ⟨j, hj1, hj2, hj3⟩) <;>
      exact ⟨j, by omega, by omega, hj3⟩
  · rintro ⟨j, hj1, hj2, hj3⟩
    by_cases hc : j < i + w
    · exact Or.inl ⟨j, hj1, hc, hj3⟩
    · exact Or.inr ⟨j, by omega, by omega, hj3⟩

theorem smear32_testBit (x i : Nat) :
    (smear32 x).testBit i = true ↔ ∃ j, i ≤ j ∧ j < i + 32 ∧ x.testBit j = true := by
  have h0 : ∀ i, x.testBit i = true ↔
      ∃ j, i ≤ j ∧ j < i + 1 ∧ x.testBit j = true := by
    intro i
    constructor
    · intro h; exact ⟨i, le_refl i, by omega, h⟩
    · rintro ⟨j, hj1, hj2, hj3⟩
      have hji : j = i := by omega
      exact hji ▸ hj3
  have h1 := spread_step h0
  have h2 := spread_step h1
  have h3 := spread_step h2
  have h4 := spread_step h3
  have h5 := spread_step h4 i
  norm_num at h5
  simpa [smear32] using h5

theorem exists_testBit_ge {x i : Nat} (h : 2 ^ i ≤ x) :
    ∃ j, i ≤ j ∧ x.testBit j = true := by
  by_contra hc
  push_neg at hc
  have hx : x = x % 2 ^ i := by
    apply Nat.eq_of_testBit_eq
    intro j
    rw [Nat.testBit_mod_two_pow]
    by_cases hj : j < i
    · simp [hj]
    · simp only [decide_eq_false hj, Bool.false_and]
      exact Bool.eq_false_iff.mpr (hc j (by omega))
  have hlt : x % 2 ^ i < 2 ^ i := Nat.mod_lt x (Nat.pos_pow_of_pos i (by omega))
  omega

theorem smear32_eq {x : Nat} (hx : x < 2 ^ 32) :
    smear32 x = 2 ^ Nat.size x - 1 := by
  apply Nat.eq_of_testBit_eq
  intro i
  rw [Nat.testBit_two_pow_sub_one]
  by_cases h : i < Nat.size x
  · have h2 : 2 ^ i ≤ x := Nat.lt_size.mp h
    obtain ⟨j, hj1, hj2⟩ := exists_testBit_ge h2
    have hj3 : j < 32 := by
      have hge := Nat.testBit_implies_ge hj2
      by_contra hcon
      push_neg at hcon
      have : (2 : Nat) ^ 32 ≤ 2 ^ j := Nat.pow_le_pow_right (by omega) hcon
      omega
    have hbit : (smear32 x).testBit i = true :=
      (smear32_testBit x i).mpr ⟨j, hj1, by omega, hj2⟩
    simp [hbit, h]
  · have hf : (smear32 x).testBit i = false := by
      by_contra hcon
      rw [Bool.not_eq_false] at hcon
      obtain ⟨j, hj1, _, hj3⟩ := (smear32_testBit x i).mp hcon
      have : j < Nat.size x := Nat.lt_size.mpr (Nat.testBit_implies_ge hj3)
      omega
    simp [hf, h]

theorem normCap_eq {n : Nat} (h1 : 1 ≤ n) (h2 : n ≤ 2 ^ 32) :
    normCap n = 2 ^ Nat.size (n - 1) := by
  have hlt : n - 1 < 2 ^ 32 := by omega
  have hp : 1 ≤ 2 ^ Nat.size (n - 1) := Nat.one_le_two_pow
  rw [normCap, smear32_eq hlt]
  omega

theorem le_normCap {n : Nat} (h1 : 1 ≤ n) (h2 : n ≤ 2 ^ 32) : n ≤ normCap n := by
  rw [normCap_eq h1 h2]
  have := Nat.lt_size_self (n - 1)
  omega

theorem normCap_le_pow {n e : Nat} (h1 : 1 ≤ n) (h2 : n ≤ 2 ^ 32)
    (h : n ≤ 2 ^ e) : normCap n ≤ 2 ^ e := by
  rw [normCap_eq h1 h2]
  exact Nat.pow_le_pow_right (by omega) (Nat.size_le.mpr (by omega))

theorem normCap_size_le {n : Nat} (h1 : 1 ≤ n) (h : n ≤ 2 ^ 31) :
    Nat.size (n - 1) ≤ 31 :=
  Nat.size_le.mpr (by omega)

theorem normCap_of_gt {n : Nat} (h1 : 2 ^ 31 < n) (h2 : n ≤ 2 ^ 32) :
    normCap n = 2 ^ 32 := by
  rw [normCap_eq (by omega) h2]
  have hle : Nat.size (n - 1) ≤ 32 := Nat.size_le.mpr (by omega)
  have hgt : 31 < Nat.size (n - 1) := Nat.lt_size.mpr (by omega)
  have : Nat.size (n - 1) = 32 := by omega
  rw [this]

/-! ### The slot remap parameters and digit-swap bijection -/

theorem remapMOf_pow (e : Nat) : remapMOf (2 ^ e) = 2 ^ min 3 e := by
  have h8 : cacheLineSize / atomicUint64Size = 2 ^ 3 := by decide
  rw [remapMOf, h8]
  rcases le_or_lt e 3 with h | h
  · rw [min_eq_right (Nat.pow_le_pow_right (by omega) h), min_eq_right h]
  · rw [min_eq_left (Nat.pow_le_pow_right (by omega) (by omega : 3 ≤ e)),
      min_eq_left (by omega : 3 ≤ e)]

theorem remapNOf_pow (e : Nat) : remapNOf (2 ^ e) = 2 ^ (e - min 3 e) := by
  rw [remapNOf, remapMOf_pow,
    Nat.pow_div (min_le_right 3 e) (by omega),
    max_eq_right Nat.one_le_two_pow]

theorem remapNM_mul (e : Nat) : remapNOf (2 ^ e) * remapMOf (2 ^ e) = 2 ^ e := by
  rw [remapMOf_pow, remapNOf_pow, ← pow_add]
  congr 1
  omega

theorem digitSwap_lt {m n : Nat} (hm : 0 < m) (hn : 0 < n) (k : Nat) :
    k % n * m + k / n % m < n * m := by
  have h1 : k % n < n := Nat.mod_lt k hn
  have h2 : k / n % m < m := Nat.mod_lt _ hm
  calc k % n * m + k / n % m < k % n * m + m := by omega
    _ = (k % n + 1) * m := by ring
    _ ≤ n * m := Nat.mul_le_mul_right m (by omega)

theorem mulAdd_inj {m q1 r1 q2 r2 : Nat} (hm : 0 < m) (h1 : r1 < m) (h2 : r2 < m)
    (h : q1 * m + r1 = q2 * m + r2) : q1 = q2 ∧ r1 = r2 := by
  have e1 : ∀ q r : Nat, r < m → (q * m + r) / m = q := by
    intro q r hr
    rw [Nat.mul_comm q m, Nat.mul_add_div hm, Nat.div_eq_of_lt hr, Nat.add_zero]
  have e2 : ∀ q r : Nat, r < m → (q * m + r) % m = r := by
    intro q r hr
    rw [Nat.mul_comm q m, Nat.mul_add_mod, Nat.mod_eq_of_lt hr]
  constructor
  · rw [← e1 q1 r1 h1, ← e1 q2 r2 h2, h]
  · rw [← e2 q1 r1 h1, ← e2 q2 r2 h2, h]

theorem digitSwap_inj {m n a b : Nat} (hm : 0 < m) (_hn : 0 < n)
    (ha : a < n * m) (hb : b < n * m)
    (h : a % n * m + a / n % m = b % n * m + b / n % m) : a = b := by
  have ha2 : a / n < m := Nat.div_lt_of_lt_mul ha
  have hb2 : b / n < m := Nat.div_lt_of_lt_mul hb
  rw [Nat.mod_eq_of_lt ha2, Nat.mod_eq_of_lt hb2] at h
  obtain ⟨hq, hr⟩ := mulAdd_inj hm ha2 hb2 h
  calc a = n * (a / n) + a % n := (Nat.div_add_mod a n).symm
    _ = n * (b / n) + b % n := by rw [hq, hr]
    _ = b := Nat.div_add_mod b n

theorem digitSwap_surj {m n j : Nat} (hm : 0 < m) (hn : 0 < n) (hj : j < n * m) :
    ∃ k, k < n * m ∧ k % n * m + k / n % m = j := by
  have h1 : j / m < n := Nat.div_lt_of_lt_mul (by rw [Nat.mul_comm]; exact hj)
  have h2 : j % m < m := Nat.mod_lt _ hm
  refine ⟨j % m * n + j / m, ?_, ?_⟩
  · calc j % m * n + j / m < j % m * n + n := by omega
      _ = (j % m + 1) * n := by ring
      _ ≤ m * n := Nat.mul_le_mul_right n (by omega)
      _ = n * m := Nat.mul_comm m n
  · have e1 : (j % m * n + j / m) % n = j / m := by
      rw [Nat.mul_comm (j % m) n, Nat.mul_add_mod, Nat.mod_eq_of_lt h1]
    have e2 : (j % m * n + j / m) / n = j % m := by
      rw [Nat.mul_comm (j % m) n, Nat.mul_add_div hn, Nat.div_eq_of_lt h1,
        Nat.add_zero]
    rw [e1, e2, Nat.mod_eq_of_lt h2, Nat.mul_comm (j / m) m]
    exact Nat.div_add_mod j m

theorem physIdx_eq (e k : Nat) :
    physIdx (2 ^ e) k =
      k % 2 ^ (e - min 3 e) * 2 ^ min 3 e +
        k / 2 ^ (e - min 3 e) % 2 ^ min 3 e := by
  rw [physIdx, remapNOf_pow, remapMOf_pow, Nat.and_pow_two_sub_one_eq_mod]

theorem pow_split (e : Nat) : 2 ^ (e - min 3 e) * 2 ^ min 3 e = 2 ^ e := by
  rw [← pow_add]
  congr 1
  omega

theorem physIdx_lt (e k : Nat) : physIdx (2 ^ e) k < 2 ^ e := by
  rw [physIdx_eq, ← pow_split e]
  exact digitSwap_lt (Nat.two_pow_pos _) (Nat.two_pow_pos _) k

theorem div_mod_mod (k n m : Nat) (hn : 0 < n) :
    k / n % m = k % (n * m) / n % m := by
  conv_lhs => rw [← Nat.div_add_mod k (n * m), Nat.mul_assoc,
    Nat.mul_add_div hn, Nat.mul_add_mod]

theorem physIdx_mod (e k : Nat) : physIdx (2 ^ e) k = physIdx (2 ^ e) (k % 2 ^ e) := by
  rw [physIdx_eq, physIdx_eq]
  have hd : (2 : Nat) ^ (e - min 3 e) ∣ 2 ^ e := ⟨2 ^ min 3 e, (pow_split e).symm⟩
  congr 1
  · rw [Nat.mod_mod_of_dvd k hd]
  · rw [div_mod_mod k _ _ (Nat.two_pow_pos _), pow_split]

theorem physIdx_inj_mod {e a b : Nat}
    (h : physIdx (2 ^ e) a = physIdx (2 ^ e) b) : a % 2 ^ e = b % 2 ^ e := by
  rw [physIdx_mod e a, physIdx_mod e b, physIdx_eq, physIdx_eq] at h
  have ha : a % 2 ^ e < 2 ^ (e - min 3 e) * 2 ^ min 3 e := by
    rw [pow_split]; exact Nat.mod_lt a (Nat.two_pow_pos e)
  have hb : b % 2 ^ e < 2 ^ (e - min 3 e) * 2 ^ min 3 e := by
    rw [pow_split]; exact Nat.mod_lt b (Nat.two_pow_pos e)
  exact digitSwap_inj (Nat.two_pow_pos _) (Nat.two_pow_pos _) ha hb h

theorem physIdx_bijOn (e : Nat) :
    Set.BijOn (physIdx (2 ^ e)) (Set.Iio (2 ^ e)) (Set.Iio (2 ^ e)) := by
  refine ⟨?_, ?_, ?_⟩
  · intro k _
    exact physIdx_lt e k
  · intro a ha b hb hab
    have h := physIdx_inj_mod hab
    rw [Set.mem_Iio] at ha hb
    rwa [Nat.mod_eq_of_lt ha, Nat.mod_eq_of_lt hb] at h
  · intro j hj
    rw [Set.mem_Iio] at hj
    rw [← pow_split e] at hj
    obtain ⟨k, hk, hval⟩ :=
      digitSwap_surj (Nat.two_pow_pos (min 3 e)) (Nat.two_pow_pos (e - min 3 e)) hj
    refine ⟨k, ?_, ?_⟩
    · rw [Set.mem_Iio, ← pow_split e]; exact hk
    · rw [physIdx_eq]; exact hval

/-! ### Remap and slot access under the sequential invariant -/

namespace BoundedPool

variable {T : Type} {s : BoundedPool T}

theorem cap_pos (hI : Inv s) : 0 < s.capacity := by
  obtain ⟨e, _, hc⟩ := hI.cap_pow
  rw [hc]
  exact Nat.two_pow_pos _

theorem cap_le (hI : Inv s) : s.capacity ≤ 2 ^ 31 := by
  obtain ⟨e, he, hc⟩ := hI.cap_pow
  rw [hc]
  exact Nat.pow_le_pow_right (by omega) he

theorem remap_eq_physIdx (hI : Inv s) (x : Nat) :
    s.remap x = physIdx s.capacity x := by
  obtain ⟨e, he, hcap⟩ := hI.cap_pow
  have hlt : physIdx s.capacity x < 2 ^ 32 := by
    rw [hcap]
    exact lt_of_lt_of_le (physIdx_lt e x)
      (Nat.pow_le_pow_right (by omega) (by omega))
  simp only [remap, physIdx, hI.nmask_eq, hI.n_eq, hI.m_eq]
  exact u32_eq_of_lt (by simpa [physIdx] using hlt)

theorem remap_masked (hI : Inv s) (k : Nat) :
    s.remap (k &&& s.mask) = physIdx s.capacity (k % s.capacity) := by
  obtain ⟨e, he, hcap⟩ := hI.cap_pow
  rw [remap_eq_physIdx hI, hI.mask_eq, hcap, Nat.and_pow_two_sub_one_eq_mod]

theorem remap_unmasked (hI : Inv s) (k : Nat) :
    s.remap k = physIdx s.capacity (k % s.capacity) := by
  obtain ⟨e, he, hcap⟩ := hI.cap_pow
  rw [remap_eq_physIdx hI, hcap, physIdx_mod]

theorem slotAt_eq (hI : Inv s) (k : Nat) :
    slotAt s k = s.entries.getD (physIdx s.capacity (k % s.capacity)) 0 := by
  rw [slotAt, remap_masked hI]

theorem physIdx_lt_cap (hI : Inv s) (k : Nat) :
    physIdx s.capacity k < s.capacity := by
  obtain ⟨e, he, hcap⟩ := hI.cap_pow
  rw [hcap]
  exact physIdx_lt e k

theorem physIdx_cap_inj (hI : Inv s) {a b : Nat} (ha : a < s.capacity)
    (hb : b < s.capacity) (h : physIdx s.capacity a = physIdx s.capacity b) :
    a = b := by
  obtain ⟨e, he, hcap⟩ := hI.cap_pow
  rw [hcap] at h ha hb
  have hm := physIdx_inj_mod h
  rwa [Nat.mod_eq_of_lt ha, Nat.mod_eq_of_lt hb] at hm

theorem mod_ne_of_between {C h k : Nat} (_hC : 0 < C) (h1 : h < k)
    (h2 : k < h + C) : k % C ≠ h % C := by
  intro heq
  have hdvd : C ∣ k - h := (Nat.modEq_iff_dvd' (le_of_lt h1)).mp heq.symm
  have := Nat.le_of_dvd (by omega) hdvd
  omega

theorem mod_eq_iff_of_range {C h k : Nat} (_hC : 0 < C) (h1 : h < k)
    (h2 : k < h + C + 1) : k % C = h % C ↔ k = h + C := by
  constructor
  · intro heq
    have hdvd : C ∣ k - h := (Nat.modEq_iff_dvd' (le_of_lt h1)).mp heq.symm
    have := Nat.le_of_dvd (by omega) hdvd
    have hub : k - h ≤ C := by omega
    omega
  · intro heq
    rw [heq, Nat.add_mod_right]

theorem empty_testBit62 (s : BoundedPool T) (turn : Nat) :
    (s.empty turn).testBit 62 = true := by
  rw [empty, Nat.testBit_lor]
  have h : boundedPoolEntryEmpty.testBit 62 = true := by decide
  rw [h, Bool.true_or]

theorem empty_lt (s : BoundedPool T) (turn : Nat) : s.empty turn < 2 ^ 64 := by
  rw [empty, boundedPoolEntryEmpty_eq]
  have h2 : turn &&& boundedPoolEntryTurnMask ≤ boundedPoolEntryTurnMask :=
    Nat.and_le_right
  have h3 : boundedPoolEntryTurnMask < 2 ^ 62 := by decide
  exact Nat.or_lt_two_pow (by omega) (by omega)

theorem occ_ne_empty (hI : Inv s) {k : Nat} (h1 : s.head ≤ k) (h2 : k < s.tail)
    (turn : Nat) : slotAt s k ≠ s.empty turn := by
  intro heq
  have hb := (hI.occ k h1 h2).2
  rw [heq, empty_testBit62] at hb
  simp at hb

/-! ### One-step behaviour of the non-blocking primitives -/

theorem tryGet_success (hI : Inv s) (hne : s.head < s.tail) (fuel : Nat) :
    tryGet (fuel + 1) s = .ok (slotAt s s.head) (dequeueState s) := by
  have hocc : ¬ s.entries.getD (s.remap (s.head &&& s.mask)) 0 =
      s.empty (u32 (s.head / s.capacity + 1) &&& boundedPoolEntryTurnMask) :=
    occ_ne_empty hI (le_refl s.head) hne _
  simp only [tryGet]
  rw [if_neg (by omega : ¬ s.head = s.tail), if_neg hocc]
  rfl

theorem tryGet_empty (s : BoundedPool T) (h : s.head = s.tail) (fuel : Nat) :
    tryGet (fuel + 1) s = .wouldBlock s := by
  rw [tryGet, if_pos h]

theorem tryPut_success (hI : Inv s) (hroom : s.tail < s.head + s.capacity)
    (e fuel : Nat) : tryPut (fuel + 1) e s = .ok (enqueueState e s) := by
  have hcp := cap_pos hI
  have hcl := cap_le hI
  have ht := hI.tail_lt
  have hh := hI.head_le
  have hfull : ¬ s.tail = u32 (s.head + s.capacity) := by
    rw [u32]
    have hh32 : s.head < 2 ^ 32 := by omega
    omega
  have hslot : s.entries.getD (s.remap s.tail) 0 = slotAt s s.tail := by
    rw [slotAt, remap_masked hI, remap_unmasked hI]
  have hcond : s.entries.getD (s.remap s.tail) 0
      = s.empty (s.tail / s.capacity &&& boundedPoolEntryTurnMask) := by
    rw [hslot]
    exact hI.emp s.tail (le_refl s.tail) hroom
  rw [tryPut, if_neg hfull, if_pos hcond]
  rfl

theorem tryPut_full (hI : Inv s) (hfull : s.tail = s.head + s.capacity)
    (e fuel : Nat) : tryPut (fuel + 1) e s = .wouldBlock s := by
  have ht := hI.tail_lt
  have heq : s.tail = u32 (s.head + s.capacity) := by
    rw [u32]
    omega
  rw [tryPut, if_pos heq]

end BoundedPool

/-! ### Slot updates, invariant preservation, and the queue abstraction -/

namespace BoundedPool

variable {T : Type} {s : BoundedPool T}

theorem getD_set_at (hI : Inv s) (i v j : Nat) (hi : i < s.capacity)
    (hj : j < s.capacity) :
    (s.entries.set (physIdx s.capacity i) v).getD (physIdx s.capacity j) 0
      = if j = i then v else s.entries.getD (physIdx s.capacity j) 0 := by
  by_cases h : j = i
  · subst h
    rw [if_pos rfl, List.getD_eq_getElem?_getD,
      List.getElem?_set_self (by rw [hI.entries_len]; exact physIdx_lt_cap hI j),
      Option.getD_some]
  · rw [if_neg h, List.getD_eq_getElem?_getD,
      List.getElem?_set_ne (fun he => h (physIdx_cap_inj hI hi hj he).symm),
      ← List.getD_eq_getElem?_getD]

theorem dequeue_head (hI : Inv s) (hne : s.head < s.tail) :
    (dequeueState s).head = s.head + 1 := by
  show u32 (s.head + 1) = s.head + 1
  have := hI.tail_lt
  exact u32_eq_of_lt (by omega)

theorem dequeue_tail : (dequeueState s).tail = s.tail := rfl

theorem enqueue_tail (ht32 : s.tail + 1 < 2 ^ 32) (e : Nat) :
    (enqueueState e s).tail = s.tail + 1 := by
  show u32 (s.tail + 1) = s.tail + 1
  exact u32_eq_of_lt ht32

theorem slotAt_dequeue (hI : Inv s) (k : Nat) :
    slotAt (dequeueState s) k =
      if k % s.capacity = s.head % s.capacity
      then s.empty (u32 (s.head / s.capacity + 1) &&& boundedPoolEntryTurnMask)
      else slotAt s k := by
  have hstep : slotAt (dequeueState s) k =
      (s.entries.set (s.remap (s.head &&& s.mask))
        (s.empty (u32 (s.head / s.capacity + 1) &&& boundedPoolEntryTurnMask))).getD
        (s.remap (k &&& s.mask)) 0 := rfl
  rw [hstep, remap_masked hI, remap_masked hI,
    getD_set_at hI _ _ _ (Nat.mod_lt _ (cap_pos hI)) (Nat.mod_lt _ (cap_pos hI)),
    slotAt_eq hI]

theorem slotAt_enqueue (hI : Inv s) (e k : Nat) :
    slotAt (enqueueState e s) k =
      if k % s.capacity = s.tail % s.capacity then e else slotAt s k := by
  have hstep : slotAt (enqueueState e s) k =
      (s.entries.set (s.remap s.tail) e).getD (s.remap (k &&& s.mask)) 0 := rfl
  rw [hstep, remap_unmasked hI, remap_masked hI,
    getD_set_at hI _ _ _ (Nat.mod_lt _ (cap_pos hI)) (Nat.mod_lt _ (cap_pos hI)),
    slotAt_eq hI]

theorem dequeue_inv (hI : Inv s) (hne : s.head < s.tail) : Inv (dequeueState s) := by
  have hcp := cap_pos hI
  have hd := dequeue_head hI hne
  have ht := hI.tail_lt
  have hta := hI.tail_le
  refine ⟨hI.cap_pow, hI.mask_eq, hI.m_eq, hI.n_eq, hI.nmask_eq, ?_, hI.items_len,
    ?_, ?_, hI.tail_lt, ?_, ?_⟩
  · show (s.entries.set _ _).length = s.capacity
    rw [List.length_set]
    exact hI.entries_len
  · rw [hd]
    show s.head + 1 ≤ s.tail
    omega
  · rw [hd]
    show s.tail ≤ s.head + 1 + s.capacity
    omega
  · intro k h1 h2
    have h1a : s.head + 1 ≤ k := hd ▸ h1
    have h2a : k < s.tail := h2
    have hne2 : k % s.capacity ≠ s.head % s.capacity :=
      mod_ne_of_between hcp (by omega) (by omega)
    rw [slotAt_dequeue hI k, if_neg hne2]
    exact hI.occ k (by omega) h2a
  · intro k h1 h2
    have h1a : s.tail ≤ k := h1
    have h2a : k < s.head + 1 + s.capacity := by
      have h2b := hd ▸ h2
      exact h2b
    by_cases hk : k = s.head + s.capacity
    · subst hk
      rw [slotAt_dequeue hI, if_pos (by rw [Nat.add_mod_right])]
      have hu : u32 (s.head / s.capacity + 1) = s.head / s.capacity + 1 := by
        have := Nat.div_le_self s.head s.capacity
        exact u32_eq_of_lt (by omega)
      show s.empty (u32 (s.head / s.capacity + 1) &&& boundedPoolEntryTurnMask)
        = s.empty ((s.head + s.capacity) / s.capacity &&& boundedPoolEntryTurnMask)
      rw [hu, Nat.add_div_right _ hcp]
    · have hlt : s.head < k := by omega
      have hub : k < s.head + s.capacity + 1 := by omega
      rw [slotAt_dequeue hI,
        if_neg (fun heq => hk ((mod_eq_iff_of_range hcp hlt hub).mp heq))]
      exact hI.emp k h1a (by omega)

theorem enqueue_inv (hI : Inv s) (hroom : s.tail < s.head + s.capacity)
    (ht32 : s.tail + 1 < 2 ^ 32) {e : Nat} (he : e < 2 ^ 64)
    (hbit : e.testBit 62 = false) : Inv (enqueueState e s) := by
  have hcp := cap_pos hI
  have het := enqueue_tail ht32 e
  have hle := hI.head_le
  refine ⟨hI.cap_pow, hI.mask_eq, hI.m_eq, hI.n_eq, hI.nmask_eq, ?_, hI.items_len,
    ?_, ?_, ?_, ?_, ?_⟩
  · show (s.entries.set _ _).length = s.capacity
    rw [List.length_set]
    exact hI.entries_len
  · rw [het]
    show s.head ≤ s.tail + 1
    omega
  · rw [het]
    show s.tail + 1 ≤ s.head + s.capacity
    omega
  · rw [het]
    omega
  · intro k h1 h2
    have h1a : s.head ≤ k := h1
    rw [het] at h2
    by_cases hk : k = s.tail
    · subst hk
      rw [slotAt_enqueue hI, if_pos rfl]
      exact ⟨he, hbit⟩
    · have hklt : k < s.tail := by omega
      have hne2 : k % s.capacity ≠ s.tail % s.capacity :=
        fun heq => (mod_ne_of_between hcp hklt (by omega)) heq.symm
      rw [slotAt_enqueue hI, if_neg hne2]
      exact hI.occ k h1a hklt
  · intro k h1 h2
    rw [het] at h1
    have h2a : k < s.head + s.capacity := h2
    have hne2 : k % s.capacity ≠ s.tail % s.capacity :=
      mod_ne_of_between hcp (by omega) (by omega)
    rw [slotAt_enqueue hI, if_neg hne2]
    exact hI.emp k (by omega) h2a

end BoundedPool

namespace BoundedPool

variable {T : Type} {s : BoundedPool T}

theorem occList_cons (hI : Inv s) (hne : s.head < s.tail) :
    occList s = slotAt s s.head :: occList (dequeueState s) := by
  have hcp := cap_pos hI
  have hd := dequeue_head hI hne
  have hta := hI.tail_le
  have hn : occCount s = (s.tail - (s.head + 1)) + 1 := by
    rw [occCount]
    omega
  rw [occList, hn, List.range_succ_eq_map, List.map_cons, List.map_map,
    Nat.add_zero]
  congr 1
  have hocc2 : occCount (dequeueState s) = s.tail - (s.head + 1) := by
    show (dequeueState s).tail - (dequeueState s).head = _
    rw [dequeue_tail, hd]
  rw [occList, hocc2]
  refine List.map_congr_left ?_
  intro j hj
  rw [List.mem_range] at hj
  show slotAt s (s.head + Nat.succ j)
      = slotAt (dequeueState s) ((dequeueState s).head + j)
  rw [hd, slotAt_dequeue hI,
    if_neg (mod_ne_of_between hcp (by omega) (by omega))]
  exact congrArg (slotAt s) (by omega)

theorem occList_enqueue (hI : Inv s) (hroom : s.tail < s.head + s.capacity)
    (ht32 : s.tail + 1 < 2 ^ 32) (e : Nat) :
    occList (enqueueState e s) = occList s ++ [e] := by
  have hcp := cap_pos hI
  have hle := hI.head_le
  have hn : occCount (enqueueState e s) = occCount s + 1 := by
    show (enqueueState e s).tail - (enqueueState e s).head = s.tail - s.head + 1
    rw [enqueue_tail ht32]
    show s.tail + 1 - s.head = s.tail - s.head + 1
    omega
  rw [occList, hn, List.range_succ, List.map_append]
  congr 1
  · rw [occList]
    refine List.map_congr_left ?_
    intro j hj
    rw [List.mem_range] at hj
    have hj2 : j < s.tail - s.head := hj
    show slotAt (enqueueState e s) (s.head + j) = slotAt s (s.head + j)
    rw [slotAt_enqueue hI,
      if_neg (fun heq => (mod_ne_of_between hcp (by omega : s.head + j < s.tail)
        (by omega : s.tail < s.head + j + s.capacity)) heq.symm)]
  · show [slotAt (enqueueState e s) (s.head + occCount s)] = [e]
    have hocc : s.head + occCount s = s.tail := by
      rw [occCount]
      omega
    rw [hocc, slotAt_enqueue hI, if_pos rfl]

/-! ### Public operation wrappers -/

theorem Get_ok (hI : Inv s) (hne : s.head < s.tail) (fuel : Nat) :
    Get (fuel + 1) s = .ok (slotAt s s.head &&& s.mask) (dequeueState s) := by
  rw [Get, if_neg (not_not_intro hI.items_len), GetAux, tryGet_success hI hne]
  rfl

theorem Get_empty_nb (hlen : s.items.length = s.capacity)
    (hempty : s.head = s.tail) (hnb : s.nonblocking = true) (fuel : Nat) :
    Get (fuel + 1) s = .wouldBlock s := by
  rw [Get, if_neg (not_not_intro hlen), GetAux, tryGet_empty s hempty]
  simp [hnb]

theorem Put_ok (hI : Inv s) (hroom : s.tail < s.head + s.capacity)
    (i : Int) (fuel : Nat) :
    Put (fuel + 1) i s = .ok (enqueueState ((i % (2 ^ 64 : Int)).toNat) s) := by
  rw [Put, if_neg (not_not_intro hI.items_len), PutAux, tryPut_success hI hroom]

theorem Put_full_nb (hI : Inv s) (hfull : s.tail = s.head + s.capacity)
    (hnb : s.nonblocking = true) (i : Int) (fuel : Nat) :
    Put (fuel + 1) i s = .wouldBlock s := by
  rw [Put, if_neg (not_not_intro hI.items_len), PutAux, tryPut_full hI hfull]
  simp [hnb]

theorem PutAux_ne_panicked (fuel e : Nat) (s : BoundedPool T) :
    PutAux fuel e s ≠ .panicked := by
  induction fuel generalizing s with
  | zero => simp [PutAux]
  | succ n ih =>
    rw [PutAux]
    cases htp : tryPut (n + 1) e s with
    | ok s1 => simp
    | wouldBlock s1 =>
      by_cases hb : s1.nonblocking
      · simp [hb]
      · simp only [hb]
        exact ih s1
    | fuelOut s1 => simp

theorem Put_ne_panicked (hlen : s.items.length = s.capacity) (fuel : Nat)
    (i : Int) : Put fuel i s ≠ .panicked := by
  rw [Put, if_neg (not_not_intro hlen)]
  exact PutAux_ne_panicked fuel _ s

end BoundedPool

/-! ### The freshly filled pool -/

theorem NewBoundedPool_some {T : Type} {c : Int} {p : BoundedPool T}
    (h1 : 1 ≤ c) (h2 : c ≤ 2 ^ 32 - 1) (hp : NewBoundedPool c = some p) :
    p = poolOf T (normCap c.toNat) := by
  rw [NewBoundedPool, if_neg (by omega)] at hp
  exact (Option.some_injective _ hp).symm

theorem normCap_pos (n : Nat) : 0 < normCap n := by
  rw [normCap]
  omega

namespace BoundedPool

variable {T : Type}

theorem fill_inv {c : Int} {p : BoundedPool T} (f : Nat → T)
    (h1 : 1 ≤ c) (h2 : c ≤ 2 ^ 31) (hp : NewBoundedPool c = some p) :
    Inv (Fill p f) ∧ (Fill p f).head = 0 ∧
      (Fill p f).tail = normCap c.toNat ∧
      (Fill p f).capacity = normCap c.toNat ∧
      (∀ k, k < normCap c.toNat →
        slotAt (Fill p f) k = physIdx (normCap c.toNat) (k % normCap c.toNat)) := by
  have hpe := NewBoundedPool_some h1 (by omega) hp
  subst hpe
  have hn1 : 1 ≤ c.toNat := by omega
  have hn2 : c.toNat ≤ 2 ^ 31 := by omega
  have hCpos : 0 < normCap c.toNat := normCap_pos c.toNat
  have hC31 : normCap c.toNat ≤ 2 ^ 31 := normCap_le_pow hn1 (by omega) hn2
  have hC32 : normCap c.toNat < 2 ^ 32 := by omega
  have hpow : ∃ e, e ≤ 31 ∧ normCap c.toNat = 2 ^ e :=
    ⟨Nat.size (c.toNat - 1), normCap_size_le hn1 hn2, normCap_eq hn1 (by omega)⟩
  obtain ⟨e, he, hCe⟩ := hpow
  have hcap : (poolOf T (normCap c.toNat)).capacity = normCap c.toNat :=
    u32_eq_of_lt hC32
  have hmask : (poolOf T (normCap c.toNat)).mask = normCap c.toNat - 1 :=
    u32_eq_of_lt (by omega)
  have hcapF : (Fill (poolOf T (normCap c.toNat)) f).capacity = normCap c.toNat :=
    hcap
  have htailF : (Fill (poolOf T (normCap c.toNat)) f).tail = normCap c.toNat :=
    hcap
  have hremap : ∀ x, (Fill (poolOf T (normCap c.toNat)) f).remap x
      = physIdx (normCap c.toNat) x := by
    intro x
    show u32 (physIdx (normCap c.toNat) x) = physIdx (normCap c.toNat) x
    refine u32_eq_of_lt ?_
    rw [hCe]
    exact lt_of_lt_of_le (physIdx_lt e x) (by omega)
  have hrange : ∀ i, i < normCap c.toNat →
      (List.range (poolOf T (normCap c.toNat)).capacity).getD i 0 = i := by
    intro i hi
    rw [List.getD_eq_getElem?_getD, hcap, List.getElem?_range hi]
    rfl
  have hslot : ∀ k, slotAt (Fill (poolOf T (normCap c.toNat)) f) k
      = physIdx (normCap c.toNat) (k % normCap c.toNat) := by
    intro k
    show (List.range (poolOf T (normCap c.toNat)).capacity).getD
      ((Fill (poolOf T (normCap c.toNat)) f).remap
        (k &&& (poolOf T (normCap c.toNat)).mask)) 0 = _
    rw [hmask, hremap]
    rw [hCe, Nat.and_pow_two_sub_one_eq_mod, ← hCe]
    refine hrange _ ?_
    rw [hCe]
    exact physIdx_lt e _
  refine ⟨⟨?_, ?_, ?_, ?_, ?_, ?_, ?_, ?_, ?_, ?_, ?_, ?_⟩, rfl, htailF, hcapF,
    fun k _ => hslot k⟩
  · exact ⟨e, he, by rw [hcapF, hCe]⟩
  · rw [hcapF]
    exact hmask
  · rw [hcapF]
    rfl
  · rw [hcapF]
    rfl
  · rfl
  · show (List.range (poolOf T (normCap c.toNat)).capacity).length = _
    rw [List.length_range]
    rfl
  · show (([] : List T) ++ (List.range (poolOf T (normCap c.toNat)).capacity).map f).length = _
    rw [List.nil_append, List.length_map, List.length_range]
    rfl
  · exact Nat.zero_le _
  · show (poolOf T (normCap c.toNat)).capacity ≤ 0 + (poolOf T (normCap c.toNat)).capacity
    omega
  · show (poolOf T (normCap c.toNat)).capacity < 2 ^ 32
    rw [hcap]
    exact hC32
  · intro k hk1 hk2
    have hk2a : k < normCap c.toNat := htailF ▸ hk2
    rw [hslot k]
    have hv : physIdx (normCap c.toNat) (k % normCap c.toNat) < normCap c.toNat := by
      rw [hCe]
      exact physIdx_lt e _
    constructor
    · omega
    · exact Nat.testBit_lt_two_pow (by omega)
  · intro k hk1 hk2
    have hk1a : normCap c.toNat ≤ k := htailF ▸ hk1
    have hhz : (Fill (poolOf T (normCap c.toNat)) f).head = 0 := rfl
    rw [hhz, hcapF] at hk2
    omega

theorem setNonblock_inv {s : BoundedPool T} (hI : Inv s) (b : Bool) :
    Inv (SetNonblock s b) :=
  ⟨hI.cap_pow, hI.mask_eq, hI.m_eq, hI.n_eq, hI.nmask_eq, hI.entries_len,
    hI.items_len, hI.head_le, hI.tail_le, hI.tail_lt, hI.occ, hI.emp⟩

/-! ### Iterated gets -/

theorem getTimes_inv (k : Nat) :
    ∀ (s : BoundedPool T), Inv s → k ≤ occCount s →
      ∃ s2, getTimes k s = some s2 ∧ Inv s2 ∧
        s2.head = s.head + k ∧ s2.tail = s.tail ∧
        s2.capacity = s.capacity ∧ s2.mask = s.mask ∧
        s2.items = s.items ∧ s2.nonblocking = s.nonblocking ∧
        occList s2 = (occList s).drop k := by
  induction k with
  | zero =>
    intro s hI hk
    exact ⟨s, rfl, hI, by omega, rfl, rfl, rfl, rfl, rfl, by simp⟩
  | succ n ih =>
    intro s hI hk
    have hcp := cap_pos hI
    have hne : s.head < s.tail := by
      have hocc : n + 1 ≤ s.tail - s.head := hk
      omega
    have hget : Get 1 s = .ok (slotAt s s.head &&& s.mask) (dequeueState s) :=
      Get_ok hI hne 0
    have hI2 := dequeue_inv hI hne
    have hdh := dequeue_head hI hne
    have hocc2 : n ≤ occCount (dequeueState s) := by
      show n ≤ (dequeueState s).tail - (dequeueState s).head
      rw [dequeue_tail, hdh]
      have hocc : n + 1 ≤ s.tail - s.head := hk
      omega
    obtain ⟨s2, hgt, hI3, hh, htl, hc, hm, hit, hnb, hol⟩ :=
      ih (dequeueState s) hI2 hocc2
    refine ⟨s2, ?_, hI3, ?_, ?_, ?_, ?_, ?_, ?_, ?_⟩
    · rw [getTimes, hget]
      exact hgt
    · rw [hh, hdh]
      omega
    · rw [htl, dequeue_tail]
    · rw [hc]
      rfl
    · rw [hm]
      rfl
    · rw [hit]
      rfl
    · rw [hnb]
      rfl
    · rw [hol, occList_cons hI hne, List.drop_succ_cons]

end BoundedPool

/-! ### Shared facts about constructed pools -/

theorem normCap_pow {c : Int} (h1 : 1 ≤ c) (h2 : c ≤ 2 ^ 31) :
    ∃ e, e ≤ 31 ∧ normCap c.toNat = 2 ^ e :=
  ⟨Nat.size (c.toNat - 1), normCap_size_le (by omega) (by omega),
    normCap_eq (by omega) (by omega)⟩

theorem poolOf_remap {T : Type} {C e : Nat} (he : e ≤ 31) (hC : C = 2 ^ e)
    (x : Nat) : (poolOf T C).remap x = physIdx C x := by
  show u32 (physIdx C x) = physIdx C x
  refine u32_eq_of_lt ?_
  rw [hC]
  exact lt_of_lt_of_le (physIdx_lt e x)
    (Nat.pow_le_pow_right (by omega) (by omega))

/-! ### Claim theorems -/

/-- C1 (counterexample): the claim fails at the upper end of its stated range.
`new_pool(2^32)` panics even though `2^32` is inside the claimed range
`[1, 2^32]`, and `new_pool(2^32 - 1)` succeeds but reports `Cap() = 0` (the
normalised capacity `2^32` is truncated by the `uint32` field), not the least
power of two `2^32`. -/
theorem C1_counterexample :
    NewBoundedPool (T := Unit) (2 ^ 32) = none ∧
      (NewBoundedPool (T := Unit) (2 ^ 32 - 1)).map BoundedPool.Cap = some 0 ∧
      (0 : Nat) ≠ 2 ^ 32 := by
  refine ⟨?_, ?_, by decide⟩
  · rw [NewBoundedPool, if_pos (by omega)]
  · rw [NewBoundedPool, if_neg (by omega)]
    rfl

/-- C1 (amended): for every requested capacity `c ∈ [1, 2^31]`, `new_pool(c)`
succeeds and `Cap()` is the least power of two that is at least `c` (in
particular `new_pool(100).Cap() = 128`); `new_pool` panics exactly when
`c < 1` or `c > 2^32 - 1` (not `2^32`); and for `c ∈ (2^31, 2^32 - 1]` the
rounded capacity `2^32` overflows the 32-bit capacity field, so the pool is
constructed with `Cap() = 0`. -/
theorem C1_amended :
    (∀ c : Int, 1 ≤ c → c ≤ 2 ^ 31 →
      ∃ p : BoundedPool Unit, NewBoundedPool c = some p ∧
        c ≤ (p.Cap : Int) ∧ (∃ e : Nat, p.Cap = 2 ^ e) ∧
        ∀ e : Nat, c ≤ ((2 ^ e : Nat) : Int) → p.Cap ≤ 2 ^ e) ∧
    (∀ c : Int, NewBoundedPool (T := Unit) c = none ↔ c < 1 ∨ 2 ^ 32 - 1 < c) ∧
    (∀ c : Int, 2 ^ 31 < c → c ≤ 2 ^ 32 - 1 →
      ∃ p : BoundedPool Unit, NewBoundedPool c = some p ∧ p.Cap = 0) ∧
    (∃ p : BoundedPool Unit, NewBoundedPool 100 = some p ∧ p.Cap = 128) := by
  refine ⟨?_, ?_, ?_, ?_⟩
  · intro c h1 h2
    have hn1 : 1 ≤ c.toNat := by omega
    have hn2 : c.toNat ≤ 2 ^ 31 := by omega
    have hC31 : normCap c.toNat ≤ 2 ^ 31 := normCap_le_pow hn1 (by omega) hn2
    have hcapv : (poolOf Unit (normCap c.toNat)).Cap = normCap c.toNat :=
      u32_eq_of_lt (by omega)
    refine ⟨poolOf Unit (normCap c.toNat), ?_, ?_, ?_, ?_⟩
    · rw [NewBoundedPool, if_neg (by omega)]
    · rw [hcapv]
      have := le_normCap hn1 (by omega)
      omega
    · obtain ⟨e, he, hCe⟩ := normCap_pow h1 h2
      exact ⟨e, by rw [hcapv, hCe]⟩
    · intro e hce
      rw [hcapv]
      exact normCap_le_pow hn1 (by omega) (Int.toNat_le.mpr hce)
  · intro c
    rw [NewBoundedPool]
    split_ifs with g
    · exact iff_of_true rfl g
    · exact iff_of_false (by simp) g
  · intro c h1 h2
    have hn1 : 2 ^ 31 < c.toNat := by omega
    have hn2 : c.toNat ≤ 2 ^ 32 := by omega
    refine ⟨poolOf Unit (normCap c.toNat), ?_, ?_⟩
    · rw [NewBoundedPool, if_neg (by omega)]
    · show u32 (normCap c.toNat) = 0
      rw [normCap_of_gt hn1 hn2, u32]
      omega
  · exact ⟨poolOf Unit 128, by rfl, by rfl⟩

/-- C4: in `tryPut` the physical slot index used for the CAS is computed from
the unmasked tail cursor, while `tryGet` masks the head cursor first; for a
constructed pool (capacity `C` a power of two) `remap(t) = remap(t mod C)
= remap(t & mask)` for every 32-bit cursor `t`, so both select the same slot. -/
theorem C4_remap_mod (T : Type) (c : Int) (p : BoundedPool T)
    (h1 : 1 ≤ c) (h2 : c ≤ 2 ^ 31) (hp : NewBoundedPool c = some p) :
    ∀ t : Nat, t < 2 ^ 32 →
      p.remap t = p.remap (t % p.capacity) ∧
      p.remap t = p.remap (t &&& p.mask) := by
  have hpe := NewBoundedPool_some h1 (by omega) hp
  subst hpe
  obtain ⟨e, he, hCe⟩ := normCap_pow h1 h2
  have hCpos : 0 < normCap c.toNat := normCap_pos c.toNat
  have hC32 : normCap c.toNat < 2 ^ 32 := by
    have : normCap c.toNat ≤ 2 ^ 31 := by
      rw [hCe]
      exact Nat.pow_le_pow_right (by omega) he
    omega
  have hcap : (poolOf T (normCap c.toNat)).capacity = normCap c.toNat :=
    u32_eq_of_lt hC32
  have hmask : (poolOf T (normCap c.toNat)).mask = normCap c.toNat - 1 :=
    u32_eq_of_lt (by omega)
  intro t ht
  constructor
  · rw [poolOf_remap he hCe, poolOf_remap he hCe, hcap, hCe, ← physIdx_mod]
  · rw [poolOf_remap he hCe, poolOf_remap he hCe, hmask, hCe,
      Nat.and_pow_two_sub_one_eq_mod, ← physIdx_mod]

/-- C4 witness: requested capacity 16 (normalised capacity 16, `remapM = 8`,
`remapN = 2`), cursor 1000. -/
theorem C4_witness :
    pool16.remap 1000 = pool16.remap (1000 % pool16.capacity) ∧
    pool16.remap 1000 = pool16.remap (1000 &&& pool16.mask) :=
  C4_remap_mod Unit 16 pool16 (by decide) (by decide) (by rfl) 1000 (by decide)

/-- C5: for every power-of-two capacity `C = 2^e` with `e ≤ 32`, the slot
remap `phys(k) = q * M + (p mod M)` with `M = min(cache_line_size / 8, C)`,
`N = max(1, C / M)`, `p = k / N`, `q = k & (N - 1)` is a bijection from
`[0, C)` onto `[0, C)`. -/
theorem C5_remap_bijection (C e : Nat) (_he : e ≤ 32) (hC : C = 2 ^ e) :
    Set.BijOn (physIdx C) (Set.Iio C) (Set.Iio C) := by
  subst hC
  exact physIdx_bijOn e

/-- C5 witness at `C = 32 = 2^5`. -/
theorem C5_witness :
    Set.BijOn (physIdx 32) (Set.Iio 32) (Set.Iio 32) :=
  C5_remap_bijection 32 5 (by decide) (by decide)

/-- C3: after one `Fill` on a newly constructed pool of capacity `C`, the
value table holds the `C` items the factory produced (call `k` yields item
`k`), the slot array is exactly `[0, 1, ..., C-1]` (slot `k` holds payload
index `k`, each payload index in `[0, C)` occurring exactly once - no
duplicates, no gaps), `tail = C` and `head = 0`. -/
theorem C3_fill_initialises (T : Type) (c : Int) (p : BoundedPool T)
    (f : Nat → T) (h1 : 1 ≤ c) (h2 : c ≤ 2 ^ 32 - 1)
    (hp : NewBoundedPool c = some p) :
    (BoundedPool.Fill p f).items
        = (List.range (BoundedPool.Fill p f).capacity).map f ∧
    (BoundedPool.Fill p f).entries
        = List.range (BoundedPool.Fill p f).capacity ∧
    (BoundedPool.Fill p f).entries.Nodup ∧
    (∀ i, i < (BoundedPool.Fill p f).capacity →
      (BoundedPool.Fill p f).entries.getD i 0 = i) ∧
    (∀ i, i < (BoundedPool.Fill p f).capacity →
      i ∈ (BoundedPool.Fill p f).entries) ∧
    (BoundedPool.Fill p f).tail = (BoundedPool.Fill p f).capacity ∧
    (BoundedPool.Fill p f).head = 0 := by
  have hpe := NewBoundedPool_some h1 h2 hp
  subst hpe
  refine ⟨List.nil_append _, rfl, List.nodup_range _, ?_, ?_, rfl, rfl⟩
  · intro i hi
    have hi2 : i < (poolOf T (normCap c.toNat)).capacity := hi
    show (List.range (poolOf T (normCap c.toNat)).capacity).getD i 0 = i
    rw [List.getD_eq_getElem?_getD, List.getElem?_range hi2]
    rfl
  · intro i hi
    exact List.mem_range.mpr hi

/-- C3 witness: capacity 4, factory returning its call number. -/
theorem C3_witness :
    (BoundedPool.Fill pool4N (fun n => n)).items
        = (List.range (BoundedPool.Fill pool4N (fun n => n)).capacity).map
          (fun n => n) ∧
    (BoundedPool.Fill pool4N (fun n => n)).entries
        = List.range (BoundedPool.Fill pool4N (fun n => n)).capacity ∧
    (BoundedPool.Fill pool4N (fun n => n)).entries.Nodup ∧
    (∀ i, i < (BoundedPool.Fill pool4N (fun n => n)).capacity →
      (BoundedPool.Fill pool4N (fun n => n)).entries.getD i 0 = i) ∧
    (∀ i, i < (BoundedPool.Fill pool4N (fun n => n)).capacity →
      i ∈ (BoundedPool.Fill pool4N (fun n => n)).entries) ∧
    (BoundedPool.Fill pool4N (fun n => n)).tail
        = (BoundedPool.Fill pool4N (fun n => n)).capacity ∧
    (BoundedPool.Fill pool4N (fun n => n)).head = 0 :=
  C3_fill_initialises Nat 4 pool4N (fun n => n) (by decide) (by decide) (by rfl)

open BoundedPool

/-- C2: with `SetNonblock(true)` on a freshly filled pool of capacity `C`:
any number of `Put` calls (of any index) return would-block and leave the
pool unchanged until some `Get` succeeds, and after exactly `C` successful
`Get` calls with no intervening `Put` the next `Get` returns would-block. -/
theorem C2_nonblock_empty_full (T : Type) (c : Int) (p : BoundedPool T)
    (f : Nat → T) (h1 : 1 ≤ c) (h2 : c ≤ 2 ^ 31)
    (hp : NewBoundedPool c = some p) :
    (∀ (i : Int) (fuel : Nat),
      BoundedPool.Put (fuel + 1) i ((BoundedPool.Fill p f).SetNonblock true)
        = .wouldBlock ((BoundedPool.Fill p f).SetNonblock true)) ∧
    (∃ sC, getTimes ((BoundedPool.Fill p f).SetNonblock true).capacity
        ((BoundedPool.Fill p f).SetNonblock true) = some sC ∧
      ∀ fuel : Nat, BoundedPool.Get (fuel + 1) sC = .wouldBlock sC) := by
  obtain ⟨hIf, hh0, htl, hcapv, _⟩ := fill_inv f h1 h2 hp
  have hI : Inv ((Fill p f).SetNonblock true) := setNonblock_inv hIf true
  have hh0a : ((Fill p f).SetNonblock true).head = 0 := hh0
  have htla : ((Fill p f).SetNonblock true).tail = normCap c.toNat := htl
  have hcapa : ((Fill p f).SetNonblock true).capacity = normCap c.toNat := hcapv
  constructor
  · intro i fuel
    refine Put_full_nb hI ?_ rfl i fuel
    rw [htla, hh0a, hcapa]
    omega
  · have hocc : ((Fill p f).SetNonblock true).capacity
        ≤ occCount ((Fill p f).SetNonblock true) := by
      rw [occCount, hh0a, htla, hcapa]
      omega
    obtain ⟨s2, hgt, hI2, hh2, ht2, hc2, hm2, hi2, hnb2, ho2⟩ :=
      getTimes_inv _ _ hI hocc
    refine ⟨s2, hgt, fun fuel => Get_empty_nb hI2.items_len ?_ ?_ fuel⟩
    · rw [hh2, ht2, hh0a, htla, hcapa]
      omega
    · rw [hnb2]
      rfl

/-- C2 witness at requested capacity 4. -/
theorem C2_witness :
    (∀ (i : Int) (fuel : Nat),
      BoundedPool.Put (fuel + 1) i
          ((BoundedPool.Fill pool4 unitFactory).SetNonblock true)
        = .wouldBlock ((BoundedPool.Fill pool4 unitFactory).SetNonblock true)) ∧
    (∃ sC,
      getTimes ((BoundedPool.Fill pool4 unitFactory).SetNonblock true).capacity
        ((BoundedPool.Fill pool4 unitFactory).SetNonblock true) = some sC ∧
      ∀ fuel : Nat, BoundedPool.Get (fuel + 1) sC = .wouldBlock sC) :=
  C2_nonblock_empty_full Unit 4 pool4 unitFactory (by decide) (by decide)
    (by rfl)

theorem int_land_pow62_ne {i : Int} (h0 : 0 ≤ i) (hlt : i < 2 ^ 62) :
    ¬ Int.land i ((boundedPoolEntryEmpty : Nat) : Int)
        = ((boundedPoolEntryEmpty : Nat) : Int) := by
  intro heq
  obtain ⟨n, rfl⟩ := Int.eq_ofNat_of_zero_le h0
  have hland : Int.land ((n : Nat) : Int) ((boundedPoolEntryEmpty : Nat) : Int)
      = ((n &&& boundedPoolEntryEmpty : Nat) : Int) := rfl
  rw [hland] at heq
  have hn : (n &&& boundedPoolEntryEmpty) = boundedPoolEntryEmpty := by
    exact_mod_cast heq
  have hle : n &&& boundedPoolEntryEmpty ≤ n := Nat.and_le_left
  rw [hn, boundedPoolEntryEmpty_eq] at hle
  have hi : ((n : Nat) : Int) < 2 ^ 62 := hlt
  omega

/-- C7: `Value(i)` and `SetValue(i, v)` panic exactly when the pool has not
been filled, or `i` carries the empty-marker bit (bit 62), or `i` lies
outside `[0, C)`: on the unfilled pool every call panics; on the filled pool
a call panics if and only if the empty-marker-bit test or the range test
fires; and for every other `i` `Value(i)` returns the item stored at `i` and
`SetValue(i, v)` stores `v` at `i`. -/
theorem C7_value_guards (T : Type) (c : Int) (p : BoundedPool T) (f : Nat → T)
    (h1 : 1 ≤ c) (h2 : c ≤ 2 ^ 32 - 1) (hp : NewBoundedPool c = some p) :
    (∀ i : Int, p.Value i = none) ∧
    (∀ i : Int, (BoundedPool.Fill p f).Value i = none ↔
      (Int.land i ((boundedPoolEntryEmpty : Nat) : Int)
          = ((boundedPoolEntryEmpty : Nat) : Int) ∨
        i < 0 ∨ ((BoundedPool.Fill p f).capacity : Int) ≤ i)) ∧
    (∀ (i : Int) (v : T), (BoundedPool.Fill p f).SetValue i v = none ↔
      (Int.land i ((boundedPoolEntryEmpty : Nat) : Int)
          = ((boundedPoolEntryEmpty : Nat) : Int) ∨
        i < 0 ∨ ((BoundedPool.Fill p f).capacity : Int) ≤ i)) ∧
    (∀ i : Int, 0 ≤ i → i < ((BoundedPool.Fill p f).capacity : Int) →
      (BoundedPool.Fill p f).Value i = some (f i.toNat) ∧
      ∀ v : T, ∃ s2, (BoundedPool.Fill p f).SetValue i v = some s2 ∧
        s2.items.get? i.toNat = some v) := by
  have hpe := NewBoundedPool_some h1 h2 hp
  subst hpe
  have hlen : (BoundedPool.Fill (poolOf T (normCap c.toNat)) f).items.length
      = (BoundedPool.Fill (poolOf T (normCap c.toNat)) f).capacity := by
    show (([] : List T)
        ++ (List.range (poolOf T (normCap c.toNat)).capacity).map f).length = _
    rw [List.nil_append, List.length_map, List.length_range]
    rfl
  have hcap32 : (BoundedPool.Fill (poolOf T (normCap c.toNat)) f).capacity
      < 2 ^ 32 := by
    show u32 (normCap c.toNat) < 2 ^ 32
    exact Nat.mod_lt _ (by omega)
  refine ⟨?_, ?_, ?_, ?_⟩
  · intro i
    rw [Value]
    split_ifs <;> rfl
  · intro i
    rw [Value, if_neg (not_not_intro hlen)]
    split_ifs with g2 g3
    · exact iff_of_true rfl (Or.inl g2)
    · exact iff_of_true rfl (Or.inr g3)
    · push_neg at g3
      refine iff_of_false ?_ ?_
      · intro hnone
        rw [List.get?_eq_getElem?, List.getElem?_eq_none_iff] at hnone
        omega
      · rintro (hg | hg | hg)
        · exact g2 hg
        · omega
        · omega
  · intro i v
    rw [SetValue, if_neg (not_not_intro hlen)]
    split_ifs with g2 g3
    · exact iff_of_true rfl (Or.inl g2)
    · exact iff_of_true rfl (Or.inr g3)
    · push_neg at g3
      refine iff_of_false (by simp) ?_
      rintro (hg | hg | hg)
      · exact g2 hg
      · omega
      · omega
  · intro i h0 hlt
    have hland := int_land_pow62_ne h0
      (by have : ((2 : Int) ^ 32) ≤ 2 ^ 62 := by norm_num
          omega)
    have hrange : ¬ (i < 0
        ∨ ((BoundedPool.Fill (poolOf T (normCap c.toNat)) f).capacity : Int)
            ≤ i) := by omega
    have hidx : i.toNat < (poolOf T (normCap c.toNat)).capacity := by
      have : i.toNat
          < (BoundedPool.Fill (poolOf T (normCap c.toNat)) f).capacity := by
        omega
      exact this
    constructor
    · rw [Value, if_neg (not_not_intro hlen), if_neg hland, if_neg hrange]
      show (([] : List T)
          ++ (List.range (poolOf T (normCap c.toNat)).capacity).map f).get?
            i.toNat = some (f i.toNat)
      rw [List.nil_append, List.get?_eq_getElem?, List.getElem?_map,
        List.getElem?_range hidx]
      rfl
    · intro v
      rw [SetValue, if_neg (not_not_intro hlen), if_neg hland, if_neg hrange]
      refine ⟨_, rfl, ?_⟩
      show ((BoundedPool.Fill (poolOf T (normCap c.toNat)) f).items.set
        i.toNat v).get? i.toNat = some v
      rw [List.get?_eq_getElem?, List.getElem?_set_self (by omega)]

/-- C7 witness: capacity 4, factory returning its call number. -/
theorem C7_witness :
    (∀ i : Int, pool4N.Value i = none) ∧
    (∀ i : Int, (BoundedPool.Fill pool4N (fun n => n)).Value i = none ↔
      (Int.land i ((boundedPoolEntryEmpty : Nat) : Int)
          = ((boundedPoolEntryEmpty : Nat) : Int) ∨
        i < 0 ∨ ((BoundedPool.Fill pool4N (fun n => n)).capacity : Int) ≤ i)) ∧
    (∀ (i : Int) (v : Nat),
      (BoundedPool.Fill pool4N (fun n => n)).SetValue i v = none ↔
      (Int.land i ((boundedPoolEntryEmpty : Nat) : Int)
          = ((boundedPoolEntryEmpty : Nat) : Int) ∨
        i < 0 ∨ ((BoundedPool.Fill pool4N (fun n => n)).capacity : Int) ≤ i)) ∧
    (∀ i : Int, 0 ≤ i →
      i < ((BoundedPool.Fill pool4N (fun n => n)).capacity : Int) →
      (BoundedPool.Fill pool4N (fun n => n)).Value i = some i.toNat ∧
      ∀ v : Nat, ∃ s2,
        (BoundedPool.Fill pool4N (fun n => n)).SetValue i v = some s2 ∧
        s2.items.get? i.toNat = some v) :=
  C7_value_guards Nat 4 pool4N (fun n => n) (by decide) (by decide) (by rfl)

/-- C9 (counterexample): after a double `Fill` on a capacity-1 pool, `Get`
panics through the same length guard as `Value`/`SetValue` - so it is false
that no operation other than `Value`/`SetValue` detects the misuse. -/
theorem C9_counterexample :
    BoundedPool.Get 1
        ((BoundedPool.Fill (BoundedPool.Fill pool1 unitFactory) unitFactory))
      = .panicked := by
  rfl

/-- C9 (amended): after a second `Fill` on a filled pool, `Value`, `SetValue`,
`Get` and `Put` all panic, each through the shared length guard
`len(items) != capacity` (`len(items) = 2C ≠ C`); only operations without the
guard (`Fill`, `SetNonblock`, `Cap`) do not detect the misuse. -/
theorem C9_double_fill (T : Type) (c : Int) (p : BoundedPool T) (f g : Nat → T)
    (h1 : 1 ≤ c) (h2 : c ≤ 2 ^ 31) (hp : NewBoundedPool c = some p) :
    (∀ i : Int,
      (BoundedPool.Fill (BoundedPool.Fill p f) g).Value i = none) ∧
    (∀ (i : Int) (v : T),
      (BoundedPool.Fill (BoundedPool.Fill p f) g).SetValue i v = none) ∧
    (∀ fuel : Nat,
      BoundedPool.Get fuel (BoundedPool.Fill (BoundedPool.Fill p f) g)
        = .panicked) ∧
    (∀ (fuel : Nat) (i : Int),
      BoundedPool.Put fuel i (BoundedPool.Fill (BoundedPool.Fill p f) g)
        = .panicked) := by
  have hpe := NewBoundedPool_some h1 (by omega) hp
  subst hpe
  have hCpos : 0 < normCap c.toNat := normCap_pos _
  have hC31 : normCap c.toNat ≤ 2 ^ 31 := normCap_le_pow (by omega) (by omega)
    (by omega)
  have hcap : (poolOf T (normCap c.toNat)).capacity = normCap c.toNat :=
    u32_eq_of_lt (by omega)
  have hlen : (BoundedPool.Fill
      (BoundedPool.Fill (poolOf T (normCap c.toNat)) f) g).items.length
      = 2 * normCap c.toNat := by
    show ((([] : List T)
        ++ (List.range (poolOf T (normCap c.toNat)).capacity).map f)
        ++ (List.range (BoundedPool.Fill (poolOf T (normCap c.toNat))
            f).capacity).map g).length = _
    rw [List.length_append, List.nil_append, List.length_map, List.length_map,
      List.length_range, List.length_range]
    show (poolOf T (normCap c.toNat)).capacity
        + (poolOf T (normCap c.toNat)).capacity = _
    rw [hcap]
    omega
  have hne : (BoundedPool.Fill
      (BoundedPool.Fill (poolOf T (normCap c.toNat)) f) g).items.length
      ≠ (BoundedPool.Fill
        (BoundedPool.Fill (poolOf T (normCap c.toNat)) f) g).capacity := by
    rw [hlen]
    show 2 * normCap c.toNat ≠ (poolOf T (normCap c.toNat)).capacity
    rw [hcap]
    omega
  refine ⟨?_, ?_, ?_, ?_⟩
  · intro i
    rw [Value, if_pos hne]
  · intro i v
    rw [SetValue, if_pos hne]
  · intro fuel
    rw [Get, if_pos hne]
  · intro fuel i
    rw [Put, if_pos hne]

/-- C9 witness: requested capacity 1. -/
theorem C9_witness :
    (∀ i : Int,
      (BoundedPool.Fill (BoundedPool.Fill pool1 unitFactory)
        unitFactory).Value i = none) ∧
    (∀ (i : Int) (v : Unit),
      (BoundedPool.Fill (BoundedPool.Fill pool1 unitFactory)
        unitFactory).SetValue i v = none) ∧
    (∀ fuel : Nat,
      BoundedPool.Get fuel
        (BoundedPool.Fill (BoundedPool.Fill pool1 unitFactory) unitFactory)
        = .panicked) ∧
    (∀ (fuel : Nat) (i : Int),
      BoundedPool.Put fuel i
        (BoundedPool.Fill (BoundedPool.Fill pool1 unitFactory) unitFactory)
        = .panicked) :=
  C9_double_fill Unit 1 pool1 unitFactory unitFactory (by decide) (by decide)
    (by rfl)

/-- C8 (counterexample): `Value` returns the stored buffer by value, not a
view into the value table.  The caller receives `[0, 0]`; writing `7` into
byte 0 of the caller's copy yields `[7, 0]`; re-reading the pool still
yields `[0, 0]`, so mutations through the returned value are not visible in
the pool's stored buffer. -/
theorem C8_counterexample :
    c8pre.Value 0 = some [0, 0] ∧ List.set [0, 0] 0 7 = [7, 0] ∧
      c8pre.Value 0 ≠ some [7, 0] := by
  refine ⟨by rfl, by rfl, by decide⟩

/-- C8 (amended): for every filled pool and valid index `i`, `Value(i)`
returns the element stored at `i` by value (a copy, under Go array
semantics) - it is exactly the value-table entry, and the pool is left
untouched; a mutation becomes visible in the pool only through
`SetValue(i, v)`, after which `Value(i)` returns `v`. -/
theorem C8_value_copy (T : Type) (c : Int) (p : BoundedPool T) (f : Nat → T)
    (h1 : 1 ≤ c) (h2 : c ≤ 2 ^ 32 - 1) (hp : NewBoundedPool c = some p) :
    ∀ i : Int, 0 ≤ i → i < ((BoundedPool.Fill p f).capacity : Int) →
      (BoundedPool.Fill p f).Value i
          = (BoundedPool.Fill p f).items.get? i.toNat ∧
      ∀ v : T, ∃ s2, (BoundedPool.Fill p f).SetValue i v = some s2 ∧
        s2.Value i = some v := by
  have hpe := NewBoundedPool_some h1 h2 hp
  subst hpe
  have hlen : (BoundedPool.Fill (poolOf T (normCap c.toNat)) f).items.length
      = (BoundedPool.Fill (poolOf T (normCap c.toNat)) f).capacity := by
    show (([] : List T)
        ++ (List.range (poolOf T (normCap c.toNat)).capacity).map f).length = _
    rw [List.nil_append, List.length_map, List.length_range]
    rfl
  have hcap32 : (BoundedPool.Fill (poolOf T (normCap c.toNat)) f).capacity
      < 2 ^ 32 := by
    show u32 (normCap c.toNat) < 2 ^ 32
    exact Nat.mod_lt _ (by omega)
  intro i h0 hlt
  have hland := int_land_pow62_ne h0
    (by have h62 : ((2 : Int) ^ 32) ≤ 2 ^ 62 := by norm_num
        omega)
  have hrange : ¬ (i < 0
      ∨ ((BoundedPool.Fill (poolOf T (normCap c.toNat)) f).capacity : Int)
          ≤ i) := by omega
  constructor
  · rw [Value, if_neg (not_not_intro hlen), if_neg hland, if_neg hrange]
  · intro v
    rw [SetValue, if_neg (not_not_intro hlen), if_neg hland, if_neg hrange]
    refine ⟨_, rfl, ?_⟩
    have hlen2 : ((BoundedPool.Fill (poolOf T (normCap c.toNat)) f).items.set
        i.toNat v).length
        = (BoundedPool.Fill (poolOf T (normCap c.toNat)) f).capacity := by
      rw [List.length_set]
      exact hlen
    rw [Value, if_neg (not_not_intro hlen2), if_neg hland, if_neg hrange]
    show ((BoundedPool.Fill (poolOf T (normCap c.toNat)) f).items.set
      i.toNat v).get? i.toNat = some v
    rw [List.get?_eq_getElem?, List.getElem?_set_self (by omega)]

/-- C8 amended-claim witness: capacity 1, buffers are byte lists, index 0. -/
theorem C8_witness :
    (BoundedPool.Fill pool1L (fun _ => [0, 0])).Value 0
        = (BoundedPool.Fill pool1L (fun _ => [0, 0])).items.get? (0 : Int).toNat ∧
    ∀ v : List Nat, ∃ s2,
      (BoundedPool.Fill pool1L (fun _ => [0, 0])).SetValue 0 v = some s2 ∧
      s2.Value 0 = some v :=
  C8_value_copy (List Nat) 1 pool1L (fun _ => [0, 0]) (by decide) (by decide)
    (by rfl) 0 (by decide) (by decide)

/-- C6 (counterexample): on a freshly filled quiescent pool of capacity 2,
`Get` from the pre-state returns index 0; after `Get` followed immediately
by `Put` of the returned index, a subsequent `Get` returns index 1 instead -
the recycled index moved to the back of the queue, so the post-state is not
observationally equal to the pre-state. -/
theorem C6_counterexample :
    getIdx (BoundedPool.Get 1 c6pre) = some 0 ∧
    (getPut c6pre).map (fun s => getIdx (BoundedPool.Get 1 s))
        = some (some 1) ∧
    (some 1 : Option Nat) ≠ some 0 := by
  refine ⟨by rfl, by rfl, by decide⟩

/-- C6 (amended): on a quiescent filled pool in a reachable well-formed
state whose available entries are payload indices below the capacity, a
`Get` immediately followed by a `Put` of the returned index succeeds and
preserves the multiset of payload indices available in the pool, the number
of available entries, and the value table - but not the dequeue order, so
the pool is not observationally equal to its pre-state (the counterexample
exhibits a subsequent `Get` returning a different index). -/
theorem C6_roundtrip_multiset (T : Type) (s : BoundedPool T) (hI : Inv s)
    (hocc : ∀ k, s.head ≤ k → k < s.tail → slotAt s k < s.capacity)
    (hne : s.head < s.tail) (ht32 : s.tail + 1 < 2 ^ 32) :
    ∃ s2, getPut s = some s2 ∧
      Multiset.ofList (occList s2) = Multiset.ofList (occList s) ∧
      occCount s2 = occCount s ∧ s2.items = s.items := by
  have hcp := cap_pos hI
  have hcl := cap_le hI
  obtain ⟨e, he, hCe⟩ := hI.cap_pow
  have hv : slotAt s s.head < s.capacity := hocc s.head (le_refl _) hne
  have hmaskv : slotAt s s.head &&& s.mask = slotAt s s.head := by
    rw [hI.mask_eq, hCe, Nat.and_pow_two_sub_one_eq_mod]
    rw [hCe] at hv
    exact Nat.mod_eq_of_lt hv
  have hGet : BoundedPool.Get 1 s
      = .ok (slotAt s s.head &&& s.mask) (dequeueState s) := Get_ok hI hne 0
  have hI1 := dequeue_inv hI hne
  have hh1 := dequeue_head hI hne
  have hroom1 : (dequeueState s).tail
      < (dequeueState s).head + (dequeueState s).capacity := by
    rw [dequeue_tail, hh1]
    show s.tail < s.head + 1 + s.capacity
    have := hI.tail_le
    omega
  have hconv : ((((slotAt s s.head &&& s.mask : Nat) : Int)
      % (2 ^ 64 : Int)).toNat) = slotAt s s.head := by
    rw [hmaskv]
    omega
  have hPut1 : BoundedPool.Put 1 ((slotAt s s.head &&& s.mask : Nat) : Int)
      (dequeueState s)
      = .ok (enqueueState (slotAt s s.head) (dequeueState s)) := by
    have h := Put_ok hI1 hroom1 ((slotAt s s.head &&& s.mask : Nat) : Int) 0
    rw [hconv] at h
    exact h
  have hgp : getPut s = some (enqueueState (slotAt s s.head)
      (dequeueState s)) := by
    rw [getPut, hGet]
    dsimp only
    rw [hPut1]
  have ht321 : (dequeueState s).tail + 1 < 2 ^ 32 := ht32
  have hol1 : occList (enqueueState (slotAt s s.head) (dequeueState s))
      = occList (dequeueState s) ++ [slotAt s s.head] :=
    occList_enqueue hI1 hroom1 ht321 _
  have hcons := occList_cons hI hne
  refine ⟨_, hgp, ?_, ?_, rfl⟩
  · rw [hol1, hcons]
    rw [Multiset.coe_eq_coe]
    exact List.perm_append_singleton _ _
  · show (enqueueState (slotAt s s.head) (dequeueState s)).tail
        - (enqueueState (slotAt s s.head) (dequeueState s)).head
      = s.tail - s.head
    rw [enqueue_tail ht321]
    show (dequeueState s).tail + 1 - (dequeueState s).head = s.tail - s.head
    rw [dequeue_tail, hh1]
    omega

/-- C6 amended-claim witness: the freshly filled non-blocking pool of
capacity 2. -/
theorem C6_witness :
    ∃ s2, getPut c6pre = some s2 ∧
      Multiset.ofList (occList s2) = Multiset.ofList (occList c6pre) ∧
      occCount s2 = occCount c6pre ∧ s2.items = c6pre.items :=
  C6_roundtrip_multiset Unit c6pre
    (setNonblock_inv
      (fill_inv unitFactory (by decide) (by decide)
        (rfl : NewBoundedPool (2 : Int) = some pool2)).1 true)
    (by
      intro k h1 h2
      have h2a : k < 2 := h2
      interval_cases k <;> decide)
    (by decide) (by decide)

theorem occList_length {T : Type} (s : BoundedPool T) :
    (occList s).length = occCount s := by
  rw [occList, List.length_map, List.length_range]

/-- C10 (counterexample): on a filled non-blocking pool of capacity 1, after
one `Get`, `Put(2^62 + 2)` succeeds, but the later `Get` does not return
`(2^62 + 2) mod Cap() = 0`: the enqueued word equals the slot's next-turn
empty marker, the consumer skips the slot as empty, and `Get` reports a
would-block on the now-empty pool (so the projection of the later `Get`'s
index is `none`, not `some 0`). -/
theorem C10_counterexample :
    (getState (BoundedPool.Get 1 c10pre)).bind
        (fun s1 => (putState (BoundedPool.Put 1 (2 ^ 62 + 2) s1)).map
          (fun s2 => getIdx (BoundedPool.Get 2 s2)))
      = some none ∧
    (none : Option Nat) ≠ some ((2 ^ 62 + 2 : Int) % 1).toNat := by
  refine ⟨by rfl, by decide⟩

/-- C10 (amended): `Put` performs no validation of its argument: on a filled
quiescent pool with room it never panics for any `int` argument, it
succeeds, and the 64-bit word installed in the tail slot is exactly
`uint64(i)`; provided `uint64(i)` does not carry the empty-marker bit
(bit 62), the `Get` that dequeues this entry (after the earlier entries are
drained) returns `uint64(i) & mask`, which equals `i mod Cap()`. -/
theorem C10_put_unvalidated (T : Type) (s : BoundedPool T) (hI : Inv s)
    (hroom : s.tail < s.head + s.capacity) (ht32 : s.tail + 1 < 2 ^ 32) :
    (∀ (fuel : Nat) (j : Int), BoundedPool.Put fuel j s ≠ .panicked) ∧
    (∀ (i : Int) (fuel : Nat),
      BoundedPool.Put (fuel + 1) i s
        = .ok (enqueueState ((i % (2 ^ 64 : Int)).toNat) s)) ∧
    (∀ i : Int, ((i % (2 ^ 64 : Int)).toNat).testBit 62 = false →
      ∃ s3, getTimes (occCount s)
          (enqueueState ((i % (2 ^ 64 : Int)).toNat) s) = some s3 ∧
        (∀ fuel : Nat, BoundedPool.Get (fuel + 1) s3
          = .ok ((i % (2 ^ 64 : Int)).toNat &&& s.mask) (dequeueState s3)) ∧
        (((i % (2 ^ 64 : Int)).toNat &&& s.mask : Nat) : Int)
          = i % (s.Cap : Int)) := by
  obtain ⟨e, he, hCe⟩ := hI.cap_pow
  refine ⟨?_, ?_, ?_⟩
  · intro fuel j
    exact Put_ne_panicked hI.items_len fuel j
  · intro i fuel
    exact Put_ok hI hroom i fuel
  · intro i hbit
    have h0 : (0 : Int) ≤ i % 2 ^ 64 := Int.emod_nonneg i (by norm_num)
    have h64 : i % (2 ^ 64 : Int) < 2 ^ 64 := Int.emod_lt_of_pos i (by norm_num)
    have he64 : (i % (2 ^ 64 : Int)).toNat < 2 ^ 64 := by omega
    have hI2 := enqueue_inv hI hroom ht32 he64 hbit
    have het := enqueue_tail ht32 ((i % (2 ^ 64 : Int)).toNat)
    have hocc2 : occCount s
        ≤ occCount (enqueueState ((i % (2 ^ 64 : Int)).toNat) s) := by
      show occCount s
        ≤ (enqueueState ((i % (2 ^ 64 : Int)).toNat) s).tail
          - (enqueueState ((i % (2 ^ 64 : Int)).toNat) s).head
      rw [het]
      show occCount s ≤ s.tail + 1 - s.head
      rw [occCount]
      omega
    obtain ⟨s3, hgt, hI3, hh3, ht3, hc3, hm3, hit3, hnb3, hol3⟩ :=
      getTimes_inv (occCount s) _ hI2 hocc2
    have hol2 : occList (enqueueState ((i % (2 ^ 64 : Int)).toNat) s)
        = occList s ++ [(i % (2 ^ 64 : Int)).toNat] :=
      occList_enqueue hI hroom ht32 _
    have hol3e : occList s3 = [(i % (2 ^ 64 : Int)).toNat] := by
      rw [hol3, hol2, List.drop_left' (occList_length s)]
    have hlen3 : occCount s3 = 1 := by
      rw [← occList_length s3, hol3e]
      rfl
    have hne3 : s3.head < s3.tail := by
      have h1 : s3.tail - s3.head = 1 := hlen3
      omega
    have hheadval : slotAt s3 s3.head = (i % (2 ^ 64 : Int)).toNat := by
      have hc := occList_cons hI3 hne3
      rw [hol3e] at hc
      exact (List.cons_eq_cons.mp hc.symm).1
    refine ⟨s3, hgt, ?_, ?_⟩
    · intro fuel
      have h := Get_ok hI3 hne3 fuel
      rw [hheadval] at h
      have hmm : s3.mask = s.mask := by
        rw [hm3]
        rfl
      rw [hmm] at h
      exact h
    · rw [hI.mask_eq, hCe, Nat.and_pow_two_sub_one_eq_mod]
      have hCap : (s.Cap : Int) = 2 ^ e := by
        show ((s.capacity : Nat) : Int) = 2 ^ e
        rw [hCe]
        push_cast
        ring
      rw [hCap]
      have hdvd : ((2 : Int) ^ e) ∣ (2 : Int) ^ 64 := pow_dvd_pow 2 (by omega)
      have htn : (((i % (2 ^ 64 : Int)).toNat : Nat) : Int) = i % 2 ^ 64 :=
        Int.toNat_of_nonneg h0
      rw [Int.natCast_mod, htn, Int.natCast_pow]
      exact Int.emod_emod_of_dvd i hdvd

/-- C10 amended-claim witness: the capacity-2 pool after one `Get` (one slot
occupied, one slot free), argument `i = 5`. -/
theorem C10_witness :
    (∀ (fuel : Nat) (j : Int),
      BoundedPool.Put fuel j (dequeueState c6pre) ≠ .panicked) ∧
    (∀ (i : Int) (fuel : Nat),
      BoundedPool.Put (fuel + 1) i (dequeueState c6pre)
        = .ok (enqueueState ((i % (2 ^ 64 : Int)).toNat) (dequeueState c6pre))) ∧
    (∀ i : Int, ((i % (2 ^ 64 : Int)).toNat).testBit 62 = false →
      ∃ s3, getTimes (occCount (dequeueState c6pre))
          (enqueueState ((i % (2 ^ 64 : Int)).toNat) (dequeueState c6pre))
          = some s3 ∧
        (∀ fuel : Nat, BoundedPool.Get (fuel + 1) s3
          = .ok ((i % (2 ^ 64 : Int)).toNat &&& (dequeueState c6pre).mask)
            (dequeueState s3)) ∧
        (((i % (2 ^ 64 : Int)).toNat &&& (dequeueState c6pre).mask : Nat) : Int)
          = i % ((dequeueState c6pre).Cap : Int)) :=
  C10_put_unvalidated Unit (dequeueState c6pre)
    (dequeue_inv
      (setNonblock_inv
        (fill_inv unitFactory (by decide) (by decide)
          (rfl : NewBoundedPool (2 : Int) = some pool2)).1 true)
      (by decide))
    (by decide) (by decide)
